import Mathlib

/-!
# Verification of the PRISM `Pipeline` iteration-control and history-matching core

Shallow embedding of `src/prism/pipeline.py` (the `Pipeline` class).  Machine
floats are modelled by `ℚ`; numpy arrays by `List`; Python exceptions by
`Except String` results.  Each definition is translated directly from the
named source function.
-/

namespace PRISM

/-- Modelled from the spec: the repository helper `check_nneg_float` (from
`prism/_internal.py`, whose source is not part of this development) rejects a
value unless it is a non-negative float; the spec states that such values
"must be non-negative, else rejected". -/
def check_nneg_float (x : ℚ) : Except String ℚ :=
  if x < 0 then Except.error "Input argument is not a non-negative float!" else Except.ok x

/-- Descending sort used by `Pipeline._do_impl_check`
(`np.flip(np.sort(uni_impl_val, axis=-1), axis=-1)`, pipeline.py line 1293). -/
def sort_desc (l : List ℚ) : List ℚ := List.insertionSort (fun a b => a ≥ b) l

/-- The scan loop of `Pipeline._do_impl_check` (pipeline.py lines 1299-1305):
walk the descending implausibility values paired with the cut-off values
(`zip` truncates at the shorter list); on the first position whose cut-off is
non-zero and whose implausibility strictly exceeds it, return failure;
if the loop ends normally the check succeeds. -/
def impl_check_loop : List ℚ → List ℚ → Bool
  | impl_val :: is, cut_val :: cs =>
      if cut_val ≠ 0 ∧ impl_val > cut_val then false else impl_check_loop is cs
  | _, _ => true

/-- `Pipeline._do_impl_check` (pipeline.py lines 1264-1305): sort the
univariate implausibility values in descending order, read off the value at
index `cut_idx` (Python raises `IndexError`, here `none`, if that index is out
of range), and run the cut-off scan against `impl_cut`. -/
def do_impl_check (impl_cut : List ℚ) (cut_idx : ℕ) (uni_impl_val : List ℚ) :
    Option (Bool × ℚ) :=
  let sorted_impl_val := sort_desc uni_impl_val
  if h : cut_idx < sorted_impl_val.length then
    some (impl_check_loop sorted_impl_val impl_cut, sorted_impl_val.get ⟨cut_idx, h⟩)
  else
    none

/-- The completion loop of `Pipeline._get_impl_cut` (pipeline.py lines
1432-1439), acting on the entries after the first one: `prev` is the already
completed previous entry; a zero entry copies `prev`; a non-zero entry that
exceeds a non-zero `prev` raises `ValueError`; every entry is first checked to
be a non-negative float. -/
def complete_from (prev : ℚ) : List ℚ → Except String (List ℚ)
  | [] => Except.ok []
  | x :: xs => do
      let x ← check_nneg_float x
      if x = 0 then do
        let rest ← complete_from prev xs
        Except.ok (prev :: rest)
      else if prev ≠ 0 ∧ x > prev then
        Except.error "Cut-off is higher than the preceding cut-off!"
      else do
        let rest ← complete_from x xs
        Except.ok (x :: rest)

/-- The `cut_idx` loop of `Pipeline._get_impl_cut` (pipeline.py lines
1442-1448): index of the first non-zero entry of the completed list;
`ValueError` if every entry is a wildcard. -/
def cut_idx_of : List ℚ → Except String ℕ
  | [] => Except.error "No non-wildcard implausibility cut-off is provided!"
  | x :: xs =>
      if x ≠ 0 then Except.ok 0
      else (cut_idx_of xs).map (fun n => n + 1)

/-- `Pipeline._get_impl_cut` (pipeline.py lines 1396-1457): check the first
entry to be a non-negative float, complete the remaining entries, and compute
`cut_idx` as the index of the first non-zero entry of the completed list.
Python raises `IndexError` on an empty input (`impl_cut[0]`). -/
def get_impl_cut (impl_cut : List ℚ) : Except String (List ℚ × ℕ) :=
  match impl_cut with
  | [] => Except.error "IndexError: list index out of range"
  | x :: xs => do
      let x ← check_nneg_float x
      let rest ← complete_from x xs
      let c ← cut_idx_of (x :: rest)
      Except.ok (x :: rest, c)

/-- The validation loop of `Pipeline._get_md_var` (pipeline.py lines
1389-1391): every model discrepancy variance must be a non-negative float. -/
def check_md_var_loop : List ℚ → Except String Unit
  | [] => Except.ok ()
  | v :: vs => do
      let _ ← check_nneg_float v
      check_md_var_loop vs

/-- `Pipeline._get_md_var` (pipeline.py lines 1356-1394): try the
user-defined `ModelLink.get_md_var` (here `some suppliedMdVar`; `none` models
the call raising `NotImplementedError`); on `NotImplementedError` default to
`(data_val/6)^2` per data point; finally check that every value is a
non-negative float. -/
def get_md_var (suppliedMdVar : Option (List ℚ)) (data_val : List ℚ) :
    Except String (List ℚ) := do
  let md_var :=
    match suppliedMdVar with
    | some v => v
    | none => data_val.map (fun v => (v / 6) ^ 2)
  let _ ← check_md_var_loop md_var
  Except.ok md_var

/-- `Pipeline._get_n_eval_sam` (pipeline.py lines 655-675): the analysis
sample-set size is `emul_i * base_eval_sam * n_par`. -/
def get_n_eval_sam (emul_i base_eval_sam n_par : ℕ) : ℕ :=
  emul_i * base_eval_sam * n_par

/-- Bind of a successful `Except` computation reduces to its continuation. -/
theorem ok_bind {α β : Type} (a : α) (k : α → Except String β) :
    (Except.ok a : Except String α) >>= k = k a := rfl

/-- Bind of a failed `Except` computation propagates the error. -/
theorem error_bind {α β : Type} (e : String) (k : α → Except String β) :
    (Except.error e : Except String α) >>= k = Except.error e := rfl

/-- The cut-off scan fails exactly when some aligned position has a non-zero
cut-off strictly below its implausibility value. -/
theorem impl_check_loop_false_iff (la lb : List ℚ) :
    impl_check_loop la lb = false ↔ ∃ p ∈ la.zip lb, p.2 ≠ 0 ∧ p.2 < p.1 := by
  induction la generalizing lb with
  | nil => simp [impl_check_loop]
  | cons a as ih =>
    cases lb with
    | nil => simp [impl_check_loop]
    | cons b bs =>
      by_cases h : b ≠ 0 ∧ a > b
      · constructor
        · intro _
          refine ⟨(a, b), ?_, h.1, h.2⟩
          rw [List.zip_cons_cons]
          exact List.mem_cons_self _ _
        · intro _
          rw [impl_check_loop, if_pos h]
      · rw [impl_check_loop, if_neg h, ih, List.zip_cons_cons]
        constructor
        · rintro ⟨p, hp, h2, h3⟩
          exact ⟨p, List.mem_cons_of_mem _ hp, h2, h3⟩
        · rintro ⟨p, hp, h2, h3⟩
          rcases List.mem_cons.mp hp with rfl | hp'
          · exact absurd ⟨h2, h3⟩ h
          · exact ⟨p, hp', h2, h3⟩

/-- C3: `_do_impl_check` sorts the implausibility values descending, fails
exactly when some position with a non-zero (non-wildcard) cut-off has its
corresponding sorted value strictly exceeding that cut-off, passes otherwise
regardless of values at wildcard positions, and also returns the sorted
implausibility value located at `cut_idx`. -/
theorem do_impl_check_spec (impl_cut uni_impl_val : List ℚ) (cut_idx : ℕ)
    (h : cut_idx < uni_impl_val.length) :
    ∃ r : Bool × ℚ, do_impl_check impl_cut cut_idx uni_impl_val = some r ∧
      (sort_desc uni_impl_val).Sorted (fun a b => a ≥ b) ∧
      (sort_desc uni_impl_val).Perm uni_impl_val ∧
      r.2 = (sort_desc uni_impl_val).getD cut_idx 0 ∧
      (r.1 = false ↔
        ∃ p ∈ (sort_desc uni_impl_val).zip impl_cut, p.2 ≠ 0 ∧ p.2 < p.1) := by
  have hlen : (sort_desc uni_impl_val).length = uni_impl_val.length :=
    List.length_insertionSort _ _
  have h' : cut_idx < (sort_desc uni_impl_val).length := by rw [hlen]; exact h
  refine ⟨(impl_check_loop (sort_desc uni_impl_val) impl_cut,
           (sort_desc uni_impl_val).get ⟨cut_idx, h'⟩), ?_, ?_, ?_, ?_, ?_⟩
  · simp only [do_impl_check, dif_pos h']
  · exact List.sorted_insertionSort _ _
  · exact List.perm_insertionSort _ _
  · rw [List.get_eq_getElem, List.getD_eq_getElem _ _ h']
  · exact impl_check_loop_false_iff _ _

/-- Closed instance of the C3 property (the cut-off scan) at a concrete
input, discharging the index-bound hypothesis. -/
theorem do_impl_check_spec_witness :
    ∃ r : Bool × ℚ, do_impl_check [3.5, 0, 0] 0 [3.6, 1, 0.5] = some r ∧
      (sort_desc [3.6, 1, 0.5]).Sorted (fun a b => a ≥ b) ∧
      (sort_desc [3.6, 1, 0.5]).Perm [3.6, 1, 0.5] ∧
      r.2 = (sort_desc [3.6, 1, 0.5]).getD 0 0 ∧
      (r.1 = false ↔
        ∃ p ∈ (sort_desc [3.6, 1, 0.5]).zip [3.5, 0, 0], p.2 ≠ 0 ∧ p.2 < p.1) :=
  do_impl_check_spec [3.5, 0, 0] [3.6, 1, 0.5] 0 (by norm_num)

/-- C4 counterexample: with `impl_cut = [3.5, 0, 0]` and `cut_idx = 0`, the
sample with implausibility values `[3.4, 5.0, 5.0]` does NOT pass the check:
the values are sorted descending to `[5.0, 5.0, 3.4]` first, so `5.0` is
compared against the non-wildcard cut-off `3.5` and the check fails. -/
theorem do_impl_check_c4_counterexample :
    do_impl_check [3.5, 0, 0] 0 [3.4, 5, 5] = some (false, 5) := by
  norm_num [do_impl_check, sort_desc, impl_check_loop, List.insertionSort,
    List.orderedInsert]

/-- C4 amended: with `impl_cut = [3.5, 0, 0]` and `cut_idx = 0`, the sample
`[3.6, 1.0, 0.5]` fails the cut-off check, and the sample `[3.4, 5.0, 5.0]`
also fails it (values are sorted descending before the element-wise
comparison, so `5.0` lands on the non-wildcard position); wildcard positions
themselves never cause a failure, e.g. with the completed default cut-offs
`[0, 4.0, 3.8, 3.5]` and `cut_idx = 1` the sample `[100, 3.9, 3.0, 1.0]`
passes although `100` is compared against the leading wildcard. -/
theorem do_impl_check_c4_amended :
    do_impl_check [3.5, 0, 0] 0 [3.6, 1, 0.5] = some (false, 3.6) ∧
    do_impl_check [3.5, 0, 0] 0 [3.4, 5, 5] = some (false, 5) ∧
    do_impl_check [0, 4.0, 3.8, 3.5] 1 [100, 3.9, 3.0, 1.0] = some (true, 3.9) := by
  refine ⟨?_, ?_, ?_⟩ <;>
    norm_num [do_impl_check, sort_desc, impl_check_loop, List.insertionSort,
      List.orderedInsert]

/-- Inversion of one step of the completion loop of `_get_impl_cut`. -/
theorem complete_from_cons_ok {p x : ℚ} {xs ys : List ℚ}
    (h : complete_from p (x :: xs) = Except.ok ys) :
    0 ≤ x ∧
    ((x = 0 ∧ ∃ rest, complete_from p xs = Except.ok rest ∧ ys = p :: rest) ∨
      (x ≠ 0 ∧ (p ≠ 0 → x ≤ p) ∧
        ∃ rest, complete_from x xs = Except.ok rest ∧ ys = x :: rest)) := by
  rw [complete_from, check_nneg_float] at h
  by_cases h1 : x < 0
  · rw [if_pos h1, error_bind] at h
    exact Except.noConfusion h
  · rw [if_neg h1] at h
    simp only [ok_bind] at h
    by_cases h2 : x = 0
    · rw [if_pos h2] at h
      cases hrec : complete_from p xs with
      | ok rest =>
        rw [hrec] at h
        simp only [ok_bind] at h
        exact ⟨le_of_not_lt h1, Or.inl ⟨h2, rest, rfl, (Except.ok.inj h).symm⟩⟩
      | error e =>
        rw [hrec, error_bind] at h
        exact Except.noConfusion h
    · rw [if_neg h2] at h
      by_cases h3 : p ≠ 0 ∧ x > p
      · rw [if_pos h3] at h
        exact Except.noConfusion h
      · rw [if_neg h3] at h
        cases hrec : complete_from x xs with
        | ok rest =>
          rw [hrec] at h
          simp only [ok_bind] at h
          refine ⟨le_of_not_lt h1, Or.inr ⟨h2, ?_, rest, rfl, (Except.ok.inj h).symm⟩⟩
          intro hp
          by_contra hxp
          exact h3 ⟨hp, lt_of_not_le hxp⟩
        | error e =>
          rw [hrec, error_bind] at h
          exact Except.noConfusion h

/-- The completion loop preserves the list length. -/
theorem complete_from_length :
    ∀ {xs ys : List ℚ} {p : ℚ}, complete_from p xs = Except.ok ys →
      ys.length = xs.length := by
  intro xs
  induction xs with
  | nil =>
    intro ys p h
    rw [complete_from] at h
    cases Except.ok.inj h
    rfl
  | cons x xs ih =>
    intro ys p h
    rcases (complete_from_cons_ok h).2 with
      ⟨_, rest, hrec, rfl⟩ | ⟨_, _, rest, hrec, rfl⟩ <;>
      simp only [List.length_cons, ih hrec]

/-- Every zero entry of the input is completed to the value at the previous
completed position (`prev` for the first position of the tail). -/
theorem complete_from_copy :
    ∀ {xs ys : List ℚ} {p : ℚ}, complete_from p xs = Except.ok ys →
      ∀ i, i < xs.length → xs.getD i 0 = 0 →
        ys.getD i 0 = (p :: ys).getD i 0 := by
  intro xs
  induction xs with
  | nil =>
    intro ys p _ i hi
    exact absurd hi (by simp)
  | cons x xs ih =>
    intro ys p h i hi hz
    rcases (complete_from_cons_ok h).2 with
      ⟨hx0, rest, hrec, rfl⟩ | ⟨hx0, _, rest, hrec, rfl⟩
    · cases i with
      | zero => simp
      | succ i =>
        simp only [List.getD_cons_succ]
        refine ih hrec i ?_ ?_
        · simp only [List.length_cons] at hi; omega
        · rwa [List.getD_cons_succ] at hz
    · cases i with
      | zero =>
        rw [List.getD_cons_zero] at hz
        exact absurd hz hx0
      | succ i =>
        simp only [List.getD_cons_succ]
        refine ih hrec i ?_ ?_
        · simp only [List.length_cons] at hi; omega
        · rwa [List.getD_cons_succ] at hz

/-- From a non-zero previous value, the completed tail forms a descending
chain starting at that value (the validation `impl_cut[i] > impl_cut[i-1]`
with non-zero `impl_cut[i-1]` rejects increases, and zero entries copy). -/
theorem complete_from_chain :
    ∀ {xs ys : List ℚ} {p : ℚ}, complete_from p xs = Except.ok ys →
      p ≠ 0 → List.Chain (fun a b => a ≥ b) p ys := by
  intro xs
  induction xs with
  | nil =>
    intro ys p h _
    rw [complete_from] at h
    cases Except.ok.inj h
    exact List.Chain.nil
  | cons x xs ih =>
    intro ys p h hp
    rcases (complete_from_cons_ok h).2 with
      ⟨_, rest, hrec, rfl⟩ | ⟨hx0, hle, rest, hrec, rfl⟩
    · exact List.Chain.cons le_rfl (ih hrec hp)
    · exact List.Chain.cons (hle hp) (ih hrec hx0)

/-- Specification of the `cut_idx` search loop: on success it returns the
index of the first non-zero entry. -/
theorem cut_idx_of_ok :
    ∀ {ys : List ℚ} {c : ℕ}, cut_idx_of ys = Except.ok c →
      c < ys.length ∧ ys.getD c 0 ≠ 0 ∧ ∀ i, i < c → ys.getD i 0 = 0 := by
  intro ys
  induction ys with
  | nil =>
    intro c h
    rw [cut_idx_of] at h
    exact Except.noConfusion h
  | cons y ys ih =>
    intro c h
    rw [cut_idx_of] at h
    by_cases hy : y ≠ 0
    · rw [if_pos hy] at h
      cases Except.ok.inj h
      refine ⟨by simp, ?_, ?_⟩
      · rw [List.getD_cons_zero]; exact hy
      · intro i hi
        exact absurd hi (Nat.not_lt_zero i)
    · rw [if_neg hy] at h
      push_neg at hy
      cases hrec : cut_idx_of ys with
      | ok c' =>
        rw [hrec] at h
        have h' : (Except.ok (c' + 1) : Except String ℕ) = Except.ok c := h
        cases Except.ok.inj h'
        obtain ⟨h1, h2, h3⟩ := ih hrec
        refine ⟨by simp only [List.length_cons]; omega, ?_, ?_⟩
        · rw [List.getD_cons_succ]; exact h2
        · intro i hi
          cases i with
          | zero => rw [List.getD_cons_zero]; exact hy
          | succ i =>
            rw [List.getD_cons_succ]
            exact h3 i (by omega)
      | error e =>
        rw [hrec] at h
        exact Except.noConfusion (show (Except.error e : Except String ℕ) =
          Except.ok c from h)

/-- On an all-zero list the `cut_idx` search fails. -/
theorem cut_idx_of_all_zero :
    ∀ {ys : List ℚ}, (∀ y ∈ ys, y = 0) →
      cut_idx_of ys =
        Except.error "No non-wildcard implausibility cut-off is provided!" := by
  intro ys
  induction ys with
  | nil =>
    intro _
    rw [cut_idx_of]
  | cons y ys ih =>
    intro hz
    have hy : y = 0 := hz y (List.mem_cons_self _ _)
    rw [cut_idx_of, if_neg (fun hne => hne hy),
      ih (fun z hm => hz z (List.mem_cons_of_mem _ hm))]
    rfl

/-- Completing an all-zero tail from a zero previous value is the identity. -/
theorem complete_from_zero_all :
    ∀ {xs : List ℚ}, (∀ x ∈ xs, x = 0) →
      complete_from 0 xs = Except.ok xs := by
  intro xs
  induction xs with
  | nil =>
    intro _
    rw [complete_from]
  | cons x xs ih =>
    intro hz
    have hx : x = 0 := hz x (List.mem_cons_self _ _)
    subst hx
    rw [complete_from, check_nneg_float, if_neg (by norm_num)]
    simp only [ok_bind]
    rw [if_pos trivial, ih (fun z hm => hz z (List.mem_cons_of_mem _ hm))]
    rfl

/-- The suffix of the completed list starting at the first non-zero position
is sorted in descending order. -/
theorem complete_from_sorted_suffix :
    ∀ {xs ys : List ℚ} {p : ℚ} {c : ℕ},
      complete_from p xs = Except.ok ys → cut_idx_of ys = Except.ok c →
        (ys.drop c).Sorted (fun a b => a ≥ b) := by
  intro xs
  induction xs with
  | nil =>
    intro ys p c h hc
    rw [complete_from] at h
    cases Except.ok.inj h
    rw [cut_idx_of] at hc
    exact Except.noConfusion hc
  | cons x xs ih =>
    intro ys p c h hc
    rcases (complete_from_cons_ok h).2 with
      ⟨_, rest, hrec, rfl⟩ | ⟨hx0, _, rest, hrec, rfl⟩
    · by_cases hp : p ≠ 0
      · rw [cut_idx_of, if_pos hp] at hc
        cases Except.ok.inj hc
        rw [List.drop_zero]
        exact List.chain_iff_pairwise.mp (complete_from_chain hrec hp)
      · push_neg at hp
        rw [cut_idx_of, if_neg (fun hne => hne hp)] at hc
        cases hrc : cut_idx_of rest with
        | ok c' =>
          rw [hrc] at hc
          have hc' : (Except.ok (c' + 1) : Except String ℕ) = Except.ok c := hc
          cases Except.ok.inj hc'
          rw [List.drop_succ_cons]
          exact ih hrec hrc
        | error e =>
          rw [hrc] at hc
          exact Except.noConfusion (show (Except.error e : Except String ℕ) =
            Except.ok c from hc)
    · rw [cut_idx_of, if_pos hx0] at hc
      cases Except.ok.inj hc
      rw [List.drop_zero]
      exact List.chain_iff_pairwise.mp (complete_from_chain hrec hx0)

/-- Inversion of `_get_impl_cut` on success. -/
theorem get_impl_cut_ok {xs ys : List ℚ} {c : ℕ}
    (h : get_impl_cut xs = Except.ok (ys, c)) :
    ∃ x xs' rest, xs = x :: xs' ∧ 0 ≤ x ∧
      complete_from x xs' = Except.ok rest ∧ ys = x :: rest ∧
      cut_idx_of ys = Except.ok c := by
  cases xs with
  | nil =>
    rw [get_impl_cut] at h
    exact Except.noConfusion h
  | cons x xs' =>
    rw [get_impl_cut, check_nneg_float] at h
    by_cases h1 : x < 0
    · rw [if_pos h1, error_bind] at h
      exact Except.noConfusion h
    · rw [if_neg h1] at h
      simp only [ok_bind] at h
      cases hrec : complete_from x xs' with
      | ok rest =>
        rw [hrec] at h
        simp only [ok_bind] at h
        cases hc : cut_idx_of (x :: rest) with
        | ok c' =>
          rw [hc] at h
          simp only [ok_bind] at h
          have h2 := Except.ok.inj h
          have hys : ys = x :: rest := (congrArg Prod.fst h2).symm
          have hcc : c' = c := congrArg Prod.snd h2
          exact ⟨x, xs', rest, rfl, le_of_not_lt h1, hrec, hys, hys ▸ hcc ▸ hc⟩
        | error e =>
          rw [hc, error_bind] at h
          exact Except.noConfusion h
      | error e =>
        rw [hrec, error_bind] at h
        exact Except.noConfusion h

/-- A list sorted in descending order has componentwise non-increasing
`getD` values. -/
theorem sorted_ge_getD_le {l : List ℚ} (hs : l.Sorted (fun a b => a ≥ b))
    {i j : ℕ} (hij : i ≤ j) (hj : j < l.length) :
    l.getD j 0 ≤ l.getD i 0 := by
  rcases eq_or_lt_of_le hij with rfl | hlt
  · exact le_rfl
  · have hi : i < l.length := lt_trans hlt hj
    have hrel := List.Sorted.rel_get_of_lt hs
      (a := ⟨i, hi⟩) (b := ⟨j, hj⟩) (Fin.mk_lt_mk.mpr hlt)
    rw [List.getD_eq_getElem _ _ hi, List.getD_eq_getElem _ _ hj]
    exact hrel

/-- `getD` after `drop` reads the shifted index. -/
theorem getD_drop_eq :
    ∀ (l : List ℚ) (c k : ℕ), (l.drop c).getD k 0 = l.getD (c + k) 0 := by
  intro l c
  induction c generalizing l with
  | zero => intro k; simp
  | succ c ih =>
    intro k
    cases l with
    | nil => simp
    | cons x xs =>
      rw [List.drop_succ_cons, ih xs k]
      rw [show c + 1 + k = (c + k) + 1 by omega, List.getD_cons_succ]

/-- C5: cut-off list completion replaces each zero entry after a resolved
entry with the prior resolved value, sets `cut_idx` to the index of the first
non-zero entry of the completed list, rejects the example input
`[3.5, 0, 4.0]` (a non-wildcard entry exceeding the preceding resolved
value), and every accepted completed list is non-increasing from `cut_idx`
onward. -/
theorem get_impl_cut_spec (xs ys : List ℚ) (c : ℕ)
    (h : get_impl_cut xs = Except.ok (ys, c)) :
    ys.length = xs.length ∧
    (∀ i, i + 1 < xs.length → xs.getD (i + 1) 0 = 0 →
      ys.getD (i + 1) 0 = ys.getD i 0) ∧
    c < ys.length ∧ ys.getD c 0 ≠ 0 ∧ (∀ i, i < c → ys.getD i 0 = 0) ∧
    (∀ i j, c ≤ i → i ≤ j → j < ys.length → ys.getD j 0 ≤ ys.getD i 0) ∧
    get_impl_cut [3.5, 0, 4.0] =
      Except.error "Cut-off is higher than the preceding cut-off!" := by
  obtain ⟨x, xs', rest, rfl, hx, hrec, rfl, hc⟩ := get_impl_cut_ok h
  obtain ⟨hc1, hc2, hc3⟩ := cut_idx_of_ok hc
  have hsorted : ((x :: rest).drop c).Sorted (fun a b => a ≥ b) := by
    by_cases hx0 : x ≠ 0
    · rw [cut_idx_of, if_pos hx0] at hc
      cases Except.ok.inj hc
      rw [List.drop_zero]
      exact List.chain_iff_pairwise.mp (complete_from_chain hrec hx0)
    · push_neg at hx0
      rw [cut_idx_of, if_neg (fun hne => hne hx0)] at hc
      cases hrc : cut_idx_of rest with
      | ok c' =>
        rw [hrc] at hc
        have hc' : (Except.ok (c' + 1) : Except String ℕ) = Except.ok c := hc
        cases Except.ok.inj hc'
        rw [List.drop_succ_cons]
        exact complete_from_sorted_suffix hrec hrc
      | error e =>
        rw [hrc] at hc
        exact Except.noConfusion (show (Except.error e : Except String ℕ) =
          Except.ok c from hc)
  refine ⟨by simp only [List.length_cons, complete_from_length hrec], ?_,
    hc1, hc2, hc3, ?_, ?_⟩
  · intro i hi hz
    simp only [List.getD_cons_succ]
    have hcopy := complete_from_copy hrec i
      (by simp only [List.length_cons] at hi; omega)
      (by rwa [List.getD_cons_succ] at hz)
    exact hcopy
  · intro i j hci hij hj
    have h1 : ((x :: rest).drop c).getD (j - c) 0 ≤
        ((x :: rest).drop c).getD (i - c) 0 := by
      refine sorted_ge_getD_le hsorted (by omega) ?_
      rw [List.length_drop]
      omega
    rw [getD_drop_eq, getD_drop_eq, show c + (i - c) = i by omega,
      show c + (j - c) = j by omega] at h1
    exact h1
  · norm_num [get_impl_cut, complete_from, cut_idx_of, check_nneg_float,
      ok_bind, error_bind]

/-- Closed instance of the C5 property at the concrete input `[4.0, 0, 3.0]`,
which completes to `[4.0, 4.0, 3.0]` with `cut_idx = 0`. -/
theorem get_impl_cut_spec_witness :
    (([4.0, 4.0, 3.0] : List ℚ).length = ([4.0, 0, 3.0] : List ℚ).length) ∧
    ([4.0, 4.0, 3.0] : List ℚ).getD 1 0 = ([4.0, 4.0, 3.0] : List ℚ).getD 0 0 ∧
    (0 : ℕ) < ([4.0, 4.0, 3.0] : List ℚ).length ∧
    ([4.0, 4.0, 3.0] : List ℚ).getD 0 0 ≠ 0 ∧
    ([4.0, 4.0, 3.0] : List ℚ).getD 2 0 ≤ ([4.0, 4.0, 3.0] : List ℚ).getD 0 0 ∧
    get_impl_cut [3.5, 0, 4.0] =
      Except.error "Cut-off is higher than the preceding cut-off!" := by
  have h := get_impl_cut_spec [4.0, 0, 3.0] [4.0, 4.0, 3.0] 0
    (by norm_num [get_impl_cut, complete_from, cut_idx_of, check_nneg_float,
      ok_bind, error_bind])
  exact ⟨h.1, h.2.1 0 (by norm_num) (by norm_num), h.2.2.1, h.2.2.2.1,
    h.2.2.2.2.2.1 0 2 (by norm_num) (by norm_num) (by norm_num), h.2.2.2.2.2.2⟩

/-- C6 counterexample: the claim says every input list whose first entry is 0
is rejected; but the default cut-off list `[0, 4.0, 3.8, 3.5]` of
`_get_default_parameters` (pipeline.py line 542) has first entry 0 and is
accepted by `_get_impl_cut`, completing to itself with `cut_idx = 1`. -/
theorem get_impl_cut_c6_counterexample :
    get_impl_cut [0, 4.0, 3.8, 3.5] = Except.ok ([0, 4.0, 3.8, 3.5], 1) := by
  norm_num [get_impl_cut, complete_from, cut_idx_of, check_nneg_float,
    ok_bind, error_bind, Except.map]

/-- An input all of whose entries are wildcards (zero) is rejected by
`_get_impl_cut` with the `ValueError` of the `cut_idx` search loop. -/
theorem get_impl_cut_all_wildcard (xs : List ℚ) (hne : xs ≠ [])
    (hz : ∀ x ∈ xs, x = 0) :
    get_impl_cut xs =
      Except.error "No non-wildcard implausibility cut-off is provided!" := by
  cases xs with
  | nil => exact absurd rfl hne
  | cons x xs' =>
    have hx : x = 0 := hz x (List.mem_cons_self _ _)
    subst hx
    rw [get_impl_cut, check_nneg_float, if_neg (by norm_num)]
    simp only [ok_bind]
    rw [complete_from_zero_all (fun z hm => hz z (List.mem_cons_of_mem _ hm))]
    simp only [ok_bind]
    rw [cut_idx_of_all_zero hz, error_bind]

/-- C6 amended: cut-off list completion does not require the first entry of
the provided list to be resolved explicitly: a first entry of 0 (a leading
wildcard) does not by itself cause rejection - the default cut-off list
`[0, 4.0, 3.8, 3.5]` is accepted, completing to itself with `cut_idx = 1` -
while an all-wildcard cut-off list (every entry zero) is rejected as invalid
input at configuration time. -/
theorem get_impl_cut_c6_amended :
    (∀ xs : List ℚ, xs ≠ [] → (∀ x ∈ xs, x = 0) →
      get_impl_cut xs =
        Except.error "No non-wildcard implausibility cut-off is provided!") ∧
    get_impl_cut [0, 4.0, 3.8, 3.5] = Except.ok ([0, 4.0, 3.8, 3.5], 1) := by
  constructor
  · exact get_impl_cut_all_wildcard
  · norm_num [get_impl_cut, complete_from, cut_idx_of, check_nneg_float,
      ok_bind, error_bind, Except.map]

/-- Closed instance of the C6 amended property: the all-wildcard list
`[0, 0]` is rejected, while the leading-wildcard default list is accepted. -/
theorem get_impl_cut_c6_amended_witness :
    get_impl_cut [0, 0] =
      Except.error "No non-wildcard implausibility cut-off is provided!" ∧
    get_impl_cut [0, 4.0, 3.8, 3.5] = Except.ok ([0, 4.0, 3.8, 3.5], 1) :=
  ⟨get_impl_cut_c6_amended.1 [0, 0] (by simp) (by intro x hx; simpa using hx),
    get_impl_cut_c6_amended.2⟩

/-- The discrepancy-variance validation loop succeeds on non-negative
values. -/
theorem check_md_var_loop_ok :
    ∀ {l : List ℚ}, (∀ v ∈ l, 0 ≤ v) → check_md_var_loop l = Except.ok () := by
  intro l
  induction l with
  | nil =>
    intro _
    rw [check_md_var_loop]
  | cons v vs ih =>
    intro hnn
    rw [check_md_var_loop, check_nneg_float,
      if_neg (not_lt.mpr (hnn v (List.mem_cons_self _ _)))]
    simp only [ok_bind]
    exact ih (fun w hw => hnn w (List.mem_cons_of_mem _ hw))

/-- The discrepancy-variance validation loop fails as soon as the list
contains a negative value. -/
theorem check_md_var_loop_err :
    ∀ {l : List ℚ} {v : ℚ}, v ∈ l → v < 0 →
      check_md_var_loop l =
        Except.error "Input argument is not a non-negative float!" := by
  intro l
  induction l with
  | nil =>
    intro v hv
    exact absurd hv (by simp)
  | cons w ws ih =>
    intro v hv hneg
    rw [check_md_var_loop, check_nneg_float]
    by_cases hw : w < 0
    · rw [if_pos hw]
      rfl
    · rw [if_neg hw]
      simp only [ok_bind]
      rcases List.mem_cons.mp hv with rfl | hv'
      · exact absurd hneg hw
      · exact ih hv' hneg

/-- C9: when the model does not supply `get_md_var` (the call raises
`NotImplementedError`, modelled by `none`), `_get_md_var` uses
`(observed_value/6)^2` as the discrepancy variance for every data point;
whether supplied or defaulted, every variance value must be non-negative and
a negative supplied value is rejected with an error. -/
theorem get_md_var_spec (data_val : List ℚ) :
    get_md_var none data_val =
      Except.ok (data_val.map (fun v => (v / 6) ^ 2)) ∧
    (∀ vs, (∀ v ∈ vs, 0 ≤ v) →
      get_md_var (some vs) data_val = Except.ok vs) ∧
    (∀ vs v, v ∈ vs → v < 0 →
      get_md_var (some vs) data_val =
        Except.error "Input argument is not a non-negative float!") := by
  refine ⟨?_, ?_, ?_⟩
  · rw [get_md_var]
    rw [check_md_var_loop_ok (by
      intro v hv
      obtain ⟨w, _, rfl⟩ := List.mem_map.mp hv
      exact sq_nonneg _)]
    rfl
  · intro vs hnn
    rw [get_md_var, check_md_var_loop_ok hnn]
    rfl
  · intro vs v hv hneg
    rw [get_md_var, check_md_var_loop_err hv hneg]
    rfl

/-- Closed instance of the C9 property: with observed values `[6, 12]` the
default discrepancy variances are `[1, 4]`, and the supplied variance list
`[1, -1]` is rejected. -/
theorem get_md_var_spec_witness :
    get_md_var none [6, 12] = Except.ok [1, 4] ∧
    get_md_var (some [1, -1]) [6, 12] =
      Except.error "Input argument is not a non-negative float!" := by
  have h := get_md_var_spec [6, 12]
  refine ⟨?_, h.2.2 [1, -1] (-1) (by norm_num) (by norm_num)⟩
  rw [h.1]
  norm_num

/-! ## The analysis pass (`Pipeline.analyze`, pipeline.py lines 1662-1769)

A sample is abstracted to a type `α`; `check j s` abstracts the per-iteration
implausibility verdict `self._do_impl_check(self, j, uni_impl_val)[0]`
obtained after evaluating the emulator of iteration `j` on sample `s`
(pipeline.py lines 1712-1723). -/

/-- The inner loop of `analyze` over `j in range(1, emul_i+1)` (pipeline.py
lines 1713-1723): stops with failure at the first iteration whose cut-off
check fails, succeeds if no iteration fails. -/
def impl_loop {α : Type} (check : ℕ → α → Bool) (s : α) : List ℕ → Bool
  | [] => true
  | j :: js => if check j s then impl_loop check s js else false

/-- The iterations at which a sample is actually evaluated by the inner loop
of `analyze`: every iteration up to and including the first failing one
(the `break` at pipeline.py line 1723). -/
def eval_iters {α : Type} (check : ℕ → α → Bool) (s : α) : List ℕ → List ℕ
  | [] => []
  | j :: js => if check j s then j :: eval_iters check s js else [j]

/-- The outer loop of `analyze` over `enumerate(eval_sam_set)` (pipeline.py
lines 1712-1727): collect the index of every sample that passes the full
inner loop into `impl_idx`; `n` is the index of the first listed sample. -/
def impl_idx_from {α : Type} (check : ℕ → α → Bool) (emul_i : ℕ) :
    ℕ → List α → List ℕ
  | _, [] => []
  | n, s :: ss =>
      if impl_loop check s (List.range' 1 emul_i)
      then n :: impl_idx_from check emul_i (n + 1) ss
      else impl_idx_from check emul_i (n + 1) ss

/-- `impl_idx` as computed by `analyze` for the whole evaluation sample
set. -/
def analyze_impl_idx {α : Type} (check : ℕ → α → Bool) (emul_i : ℕ)
    (eval_sam_set : List α) : List ℕ :=
  impl_idx_from check emul_i 0 eval_sam_set

/-- The surviving samples `eval_sam_set[impl_idx]` persisted by `analyze` as
`impl_sam` (pipeline.py line 1739). -/
def analyze_impl_sam {α : Type} (check : ℕ → α → Bool) (emul_i : ℕ)
    (eval_sam_set : List α) : List α :=
  (analyze_impl_idx check emul_i eval_sam_set).filterMap
    (fun i => eval_sam_set[i]?)

/-- The early-exit inner loop succeeds exactly on samples passing every
listed iteration. -/
theorem impl_loop_eq_all {α : Type} (check : ℕ → α → Bool) (s : α) :
    ∀ l : List ℕ, impl_loop check s l = l.all (fun j => check j s) := by
  intro l
  induction l with
  | nil => rfl
  | cons j js ih =>
    by_cases hj : check j s
    · rw [impl_loop, if_pos hj, ih, List.all_cons, hj, Bool.true_and]
    · rw [impl_loop, if_neg hj, List.all_cons,
        Bool.eq_false_iff.mpr hj, Bool.false_and]

/-- A sample that fails at iteration `j` is evaluated at no iteration beyond
`j`: the inner loop breaks at the first failing iteration. -/
theorem eval_iters_le {α : Type} (check : ℕ → α → Bool) (s : α) (j : ℕ)
    (hj : check j s = false) :
    ∀ a n, j ∈ List.range' a n →
      ∀ k ∈ eval_iters check s (List.range' a n), k ≤ j := by
  intro a n
  induction n generalizing a with
  | zero =>
    intro hmem
    exact absurd hmem (by simp)
  | succ n ih =>
    intro hmem k hk
    rw [List.range'_succ] at hmem hk
    by_cases hca : check a s
    · rw [eval_iters, if_pos hca] at hk
      rcases List.mem_cons.mp hmem with rfl | hmem'
      · exact absurd hca (by simp [hj])
      · rcases List.mem_cons.mp hk with rfl | hk'
        · have := (List.mem_range'_1.mp hmem').1
          omega
        · exact ih (a + 1) hmem' k hk'
    · rw [eval_iters, if_neg hca] at hk
      have hk' : k = a := by simpa using hk
      subst hk'
      rcases List.mem_cons.mp hmem with rfl | hmem'
      · exact le_rfl
      · have := (List.mem_range'_1.mp hmem').1
        omega

/-- Fancy-indexing the evaluation sample set by the collected `impl_idx`
yields exactly the samples passing the inner loop, in order. -/
theorem impl_idx_filterMap {α : Type} (check : ℕ → α → Bool) (emul_i : ℕ) :
    ∀ (eval_sam_set pre : List α),
      (impl_idx_from check emul_i pre.length eval_sam_set).filterMap
          (fun i => (pre ++ eval_sam_set)[i]?)
        = eval_sam_set.filter
            (fun s => impl_loop check s (List.range' 1 emul_i)) := by
  intro eval_sam_set
  induction eval_sam_set with
  | nil =>
    intro pre
    rw [impl_idx_from]
    rfl
  | cons s ss ih =>
    intro pre
    have hrewrite : pre ++ s :: ss = (pre ++ [s]) ++ ss := by simp
    have hlen : (pre ++ [s]).length = pre.length + 1 := by simp
    cases hs : impl_loop check s (List.range' 1 emul_i) with
    | true =>
      rw [impl_idx_from, if_pos hs, List.filterMap_cons]
      have hget : (pre ++ s :: ss)[pre.length]? = some s := by
        rw [List.getElem?_append_right le_rfl]
        simp
      simp only [hget, List.filter_cons, hs, if_true]
      congr 1
      have h1 := ih (pre ++ [s])
      rw [hlen] at h1
      rw [hrewrite]
      exact h1
    | false =>
      rw [impl_idx_from, if_neg (by rw [hs]; exact Bool.false_ne_true)]
      simp only [List.filter_cons, hs, Bool.false_eq_true, if_false]
      have h1 := ih (pre ++ [s])
      rw [hlen] at h1
      rw [hrewrite]
      exact h1

/-- C2: `analyze` persists as `impl_sam` exactly the subset of the generated
evaluation sample set whose cut-off checks pass at every constructed
iteration `1..emul_i`; each sample is evaluated iteration-by-iteration with
early exit at the first failing iteration, so a failing sample is evaluated
at no later iteration and is not retained. -/
theorem analyze_spec {α : Type} (check : ℕ → α → Bool) (emul_i : ℕ)
    (eval_sam_set : List α) :
    analyze_impl_sam check emul_i eval_sam_set =
      eval_sam_set.filter
        (fun s => (List.range' 1 emul_i).all (fun j => check j s)) ∧
    (∀ s j, j ∈ List.range' 1 emul_i → check j s = false →
      (∀ k ∈ eval_iters check s (List.range' 1 emul_i), k ≤ j) ∧
      s ∉ analyze_impl_sam check emul_i eval_sam_set) := by
  have hfilter : analyze_impl_sam check emul_i eval_sam_set =
      eval_sam_set.filter
        (fun s => impl_loop check s (List.range' 1 emul_i)) := by
    have h1 := impl_idx_filterMap check emul_i eval_sam_set []
    simpa [analyze_impl_sam, analyze_impl_idx] using h1
  have hfilter' : analyze_impl_sam check emul_i eval_sam_set =
      eval_sam_set.filter
        (fun s => (List.range' 1 emul_i).all (fun j => check j s)) := by
    rw [hfilter]
    exact List.filter_congr (fun x _ => impl_loop_eq_all check x _)
  refine ⟨hfilter', ?_⟩
  intro s j hjmem hjf
  refine ⟨eval_iters_le check s j hjf 1 emul_i hjmem, ?_⟩
  rw [hfilter']
  intro hmem
  have hall := (List.mem_filter.mp hmem).2
  have := List.all_eq_true.mp hall j hjmem
  rw [hjf] at this
  exact Bool.noConfusion this

/-- Closed instance of the C2 property: with the per-iteration check
`s ≤ j`, two constructed iterations and evaluation samples `[0, 3, 1]`, the
retained samples are the filtered subset and the sample `3` (failing at
iteration 1) is not retained. -/
theorem analyze_spec_witness :
    analyze_impl_sam (fun j s => decide (s ≤ j)) 2 [0, 3, 1] =
      List.filter (fun s => (List.range' 1 2).all (fun j => decide (s ≤ j)))
        [0, 3, 1] ∧
    3 ∉ analyze_impl_sam (fun j s => decide (s ≤ j)) 2 [0, 3, 1] := by
  have h := analyze_spec (fun j s => decide (s ≤ j)) 2 [0, 3, 1]
  exact ⟨h.1, (h.2 3 1 (by decide) (by decide)).2⟩

/-- The per-iteration pipeline data persisted by `analyze` through
`_save_data` (pipeline.py lines 1738-1740, 1052-1083). -/
structure anal_state (α : Type) where
  impl_sam : List α
  n_impl_sam : ℕ
  n_eval_sam : ℕ
  prc : Bool

/-- One observable effect of the `try` block of `analyze` (pipeline.py lines
1698-1740): evaluating one sample of the evaluation set, or the single
`_save_data` call that persists the surviving samples and the analysed
count (the last statement of the `try` block). -/
inductive anal_effect (α : Type) where
  | eval_sample (idx : ℕ)
  | save_results (impl_sam : List α) (n_eval_sam : ℕ)

/-- State change caused by one effect: evaluating a sample touches no
persisted data; the `_save_data` call stores `impl_sam`, its row count as
`n_impl_sam`, the analysed count as `n_eval_sam`, and `prc` as the flag that
at least one plausible sample was found. -/
def apply_effect {α : Type} (st : anal_state α) : anal_effect α → anal_state α
  | .eval_sample _ => st
  | .save_results d n =>
      { impl_sam := d
        n_impl_sam := d.length
        n_eval_sam := n
        prc := (d.length != 0) }

/-- The effect trace of one full analysis pass: all sample evaluations,
then the single persist (pipeline.py lines 1712-1740). -/
def analyze_trace {α : Type} (check : ℕ → α → Bool) (emul_i : ℕ)
    (eval_sam_set : List α) : List (anal_effect α) :=
  ((List.range eval_sam_set.length).map anal_effect.eval_sample) ++
    [anal_effect.save_results (analyze_impl_sam check emul_i eval_sam_set)
      eval_sam_set.length]

/-- Run a trace of effects on the persisted state. -/
def run_effects {α : Type} (st : anal_state α) (tr : List (anal_effect α)) :
    anal_state α :=
  tr.foldl apply_effect st

/-- An analysis pass interrupted by `KeyboardInterrupt` after `k` effects:
the handler (pipeline.py lines 1741-1744) logs and returns, so the remaining
effects of the pass are skipped. -/
def analyze_interrupted {α : Type} (check : ℕ → α → Bool) (emul_i : ℕ)
    (eval_sam_set : List α) (k : ℕ) (st : anal_state α) : anal_state α :=
  run_effects st ((analyze_trace check emul_i eval_sam_set).take k)

/-- Sample evaluations alone never change the persisted state. -/
theorem run_effects_eval_samples {α : Type} (st : anal_state α) :
    ∀ l : List ℕ, run_effects st (l.map anal_effect.eval_sample) = st := by
  intro l
  induction l with
  | nil => rfl
  | cons i l ih => exact ih

/-- C8: a user interrupt (`KeyboardInterrupt`) that arrives during the
evaluation loop of an analysis pass (at any point before the single
`_save_data` call, which is the last statement of the `try` block) is caught,
and the persisted state - `impl_sam`, `n_impl_sam`, `n_eval_sam`, `prc` - is
left exactly as it was before the pass, so the next `analyze()` call starts
the full evaluation sample set over; an uninterrupted pass persists the full
results in one step. -/
theorem analyze_interrupt_spec {α : Type} (check : ℕ → α → Bool)
    (emul_i : ℕ) (eval_sam_set : List α) (st : anal_state α) (k : ℕ)
    (hk : k ≤ eval_sam_set.length) :
    analyze_interrupted check emul_i eval_sam_set k st = st ∧
    run_effects st (analyze_trace check emul_i eval_sam_set) =
      { impl_sam := analyze_impl_sam check emul_i eval_sam_set
        n_impl_sam := (analyze_impl_sam check emul_i eval_sam_set).length
        n_eval_sam := eval_sam_set.length
        prc := ((analyze_impl_sam check emul_i eval_sam_set).length != 0) } := by
  constructor
  · rw [analyze_interrupted, analyze_trace,
      List.take_append_of_le_length (by simpa using hk), ← List.map_take]
    exact run_effects_eval_samples st _
  · rw [analyze_trace, run_effects, List.foldl_append]
    rw [show List.foldl apply_effect st
        ((List.range eval_sam_set.length).map anal_effect.eval_sample) = st
      from run_effects_eval_samples st _]
    rfl

/-- Closed instance of the C8 property: an interrupt after two of the three
sample evaluations leaves the prior persisted state untouched. -/
theorem analyze_interrupt_spec_witness :
    analyze_interrupted (fun j s => decide (s ≤ j)) 2 [0, 3, 1] 2
      ⟨[5], 1, 9, true⟩ = ⟨[5], 1, 9, true⟩ ∧
    run_effects ⟨[5], 1, 9, true⟩
        (analyze_trace (fun j s => decide (s ≤ j)) 2 [0, 3, 1]) =
      { impl_sam := analyze_impl_sam (fun j s => decide (s ≤ j)) 2 [0, 3, 1]
        n_impl_sam :=
          (analyze_impl_sam (fun j s => decide (s ≤ j)) 2 [0, 3, 1]).length
        n_eval_sam := ([0, 3, 1] : List ℕ).length
        prc :=
          ((analyze_impl_sam (fun j s => decide (s ≤ j)) 2
            [0, 3, 1]).length != 0) } :=
  analyze_interrupt_spec (fun j s => decide (s ≤ j)) 2 [0, 3, 1]
    ⟨[5], 1, 9, true⟩ 2 (by decide)

/-! ## Construction control flow (`Pipeline.construct`, pipeline.py lines
1775-2019) -/

/-- The full construction checklist of an emulator iteration, as displayed by
`Pipeline.details` (pipeline.py lines 2275-2293) and described by the spec:
model realization, active-parameter selection, regression, prior
expectation, covariance matrix. -/
def all_ccheck : List String :=
  ["mod_real_set", "active_par", "regression", "prior_exp_sam_set", "cov_mat"]

/-- The restart/resume decision of `construct` (pipeline.py lines 1843-1874):
`force` requests a full rebuild; a checklist still containing
`mod_real_set` forces reconstruction from the start; an `IndexError` on the
checklist lookup (`none`: the iteration was never constructed) also starts
from scratch; otherwise construction resumes mid-way. -/
def c_from_start (force : Bool) (ccheck : Option (List String)) : Bool :=
  if force then true
  else
    match ccheck with
    | none => true
    | some l => decide ("mod_real_set" ∈ l)

/-- One observable action of a `construct` call: the model evaluation
(`_evaluate_model`, called only under `if c_from_start:`, pipeline.py lines
1886-1993) or the completion of one pending emulator checklist step.

Modelled from the spec: the emulator methods `_prepare_new_iteration` /
`_create_new_emulator` and `_construct_iteration` (prism/emulator.py, whose
source is not part of this development) reset the checklist to full when a
rebuild starts and complete exactly the currently missing checklist steps. -/
inductive construct_step where
  | eval_model : construct_step
  | emul_step (s : String) : construct_step
deriving DecidableEq

/-- The actions performed by `construct(force, ccheck)` for an iteration with
checklist `ccheck`: on a rebuild the checklist is reset to full, the model is
re-evaluated (completing `mod_real_set`) and all remaining steps are redone;
on a resume only the steps still missing from the checklist are computed and
the model is not re-evaluated. -/
def construct_trace (force : Bool) (ccheck : Option (List String)) :
    List construct_step :=
  if c_from_start force ccheck then
    construct_step.eval_model ::
      (all_ccheck.filter (fun s => s ≠ "mod_real_set")).map
        construct_step.emul_step
  else
    (ccheck.getD []).map construct_step.emul_step

/-- C1: for an iteration whose construction checklist is non-empty and with
`force = false`, `construct` resumes without re-evaluating the model when
`mod_real_set` is not among the missing steps - only the remaining checklist
steps are completed - and restarts construction from the very first step,
model evaluation included, when `mod_real_set` is among the missing steps. -/
theorem construct_resume_spec (l : List String) (hne : l ≠ []) :
    ("mod_real_set" ∉ l →
      construct_step.eval_model ∉ construct_trace false (some l) ∧
      construct_trace false (some l) = l.map construct_step.emul_step) ∧
    ("mod_real_set" ∈ l →
      construct_trace false (some l) =
        construct_step.eval_model ::
          (all_ccheck.filter (fun s => s ≠ "mod_real_set")).map
            construct_step.emul_step) := by
  constructor
  · intro hnm
    have hdec : c_from_start false (some l) = false := by
      simp [c_from_start, hnm]
    rw [construct_trace, hdec]
    constructor
    · simp
    · simp
  · intro hm
    have hdec : c_from_start false (some l) = true := by
      simp [c_from_start, hm]
    rw [construct_trace, hdec]
    simp

/-- Closed instance of the C1 property at the checklists `["regression"]`
(resume: no model re-evaluation) and `["mod_real_set", "cov_mat"]` (restart
from the first step). -/
theorem construct_resume_spec_witness :
    (construct_step.eval_model ∉ construct_trace false (some ["regression"]) ∧
      construct_trace false (some ["regression"]) =
        ["regression"].map construct_step.emul_step) ∧
    construct_trace false (some ["mod_real_set", "cov_mat"]) =
      construct_step.eval_model ::
        (all_ccheck.filter (fun s => s ≠ "mod_real_set")).map
          construct_step.emul_step :=
  ⟨(construct_resume_spec ["regression"] (by simp)).1 (by simp),
    (construct_resume_spec ["mod_real_set", "cov_mat"] (by simp)).2 (by simp)⟩

/-- Controller state relevant to the precondition check of `construct` for an
iteration `i > 1` (pipeline.py lines 1919-1957): the previous iteration's
analysed-sample count `self._n_eval_sam[emul_i-1]`, the plausible-region
flag `self._prc`, the current plausible samples `self._impl_sam`, and the
persisted data of iteration `i` itself (abstract, type `σ`). -/
structure ctrl_state (σ τ : Type) where
  prev_n_eval_sam : ℕ
  prc : Bool
  impl_sam : List τ
  iter_data : σ

/-- Effect of the `analyze()` call triggered by `construct` on the fields it
persists for iteration `i-1` (via `_save_data`, pipeline.py lines 1738-1740
and 1052-1083): the found plausible samples, their count, and `prc` set to
whether any were found. -/
def analyze_effect {σ τ : Type} (found : List τ) (n_eval : ℕ)
    (st : ctrl_state σ τ) : ctrl_state σ τ :=
  { st with
    prev_n_eval_sam := n_eval
    prc := (found.length != 0)
    impl_sam := found }

/-- Result of the `construct` precondition path: an optional raised error,
the controller state after the path, and whether `analyze()` was invoked. -/
structure construct_result (σ τ : Type) where
  error : Option String
  state : ctrl_state σ τ
  did_analyze : Bool

/-- The plausible-region gate of `construct` (pipeline.py lines 1938-1947):
`if not self._prc: raise RequestError`, evaluated on the controller state
after the optional analysis; the raise happens before
`_prepare_new_iteration` and before any write of iteration-`i` data. -/
def prc_gate {σ τ : Type} (st1 : ctrl_state σ τ) (did : Bool) :
    construct_result σ τ :=
  if st1.prc then
    { error := none, state := st1, did_analyze := did }
  else
    { error := some "RequestError: No plausible regions were found in the analysis of the previous emulator iteration. Construction is not possible!",
      state := st1, did_analyze := did }

/-- The precondition path of `construct` for `emul_i > 1` (pipeline.py lines
1919-1947): if the previous iteration has not been analysed
(`n_eval_sam[emul_i-1]` is 0) run `analyze()` first, then apply the
plausible-region gate. -/
def construct_precheck {σ τ : Type} (found : List τ) (n_eval : ℕ)
    (st : ctrl_state σ τ) : construct_result σ τ :=
  if st.prev_n_eval_sam = 0 then
    prc_gate (analyze_effect found n_eval st) true
  else
    prc_gate st false

/-- The plausible-region gate never touches the state it is given. -/
theorem prc_gate_state {σ τ : Type} (st1 : ctrl_state σ τ) (did : Bool) :
    (prc_gate st1 did).state = st1 := by
  rw [prc_gate]
  split <;> rfl

/-- The plausible-region gate reports the analysis decision unchanged. -/
theorem prc_gate_did {σ τ : Type} (st1 : ctrl_state σ τ) (did : Bool) :
    (prc_gate st1 did).did_analyze = did := by
  rw [prc_gate]
  split <;> rfl

/-- Without a plausible region the gate raises the error. -/
theorem prc_gate_error {σ τ : Type} (st1 : ctrl_state σ τ) (did : Bool)
    (h : st1.prc = false) : (prc_gate st1 did).error.isSome = true := by
  rw [prc_gate, if_neg (by simp [h])]
  rfl

/-- C7: for an iteration `i > 1`, if the analysis of iteration `i-1` found
zero plausible samples then `construct(i)` fails with a `RequestError`-class
error and does not mutate iteration `i`'s persisted data; if iteration `i-1`
has not been analysed yet (its `n_eval_sam` is 0) the analysis is triggered
automatically before deciding. -/
theorem construct_precheck_spec {σ τ : Type} (found : List τ) (n_eval : ℕ)
    (st : ctrl_state σ τ) :
    (construct_precheck found n_eval st).state.iter_data = st.iter_data ∧
    (st.prev_n_eval_sam = 0 →
      (construct_precheck found n_eval st).did_analyze = true) ∧
    (st.prev_n_eval_sam ≠ 0 →
      (construct_precheck found n_eval st).did_analyze = false) ∧
    (st.prev_n_eval_sam = 0 → found = [] →
      (construct_precheck found n_eval st).error.isSome = true) ∧
    (st.prev_n_eval_sam ≠ 0 → st.prc = false →
      (construct_precheck found n_eval st).error.isSome = true) := by
  by_cases h0 : st.prev_n_eval_sam = 0
  · have hcp : construct_precheck found n_eval st =
        prc_gate (analyze_effect found n_eval st) true := by
      rw [construct_precheck, if_pos h0]
    refine ⟨?_, fun _ => ?_, fun hne => absurd h0 hne, fun _ hfound => ?_,
      fun hne _ => absurd h0 hne⟩
    · rw [hcp, prc_gate_state]
      rfl
    · rw [hcp, prc_gate_did]
    · subst hfound
      rw [hcp]
      exact prc_gate_error _ _ (by simp [analyze_effect])
  · have hcp : construct_precheck found n_eval st = prc_gate st false := by
      rw [construct_precheck, if_neg h0]
    refine ⟨?_, fun heq => absurd heq h0, fun _ => ?_,
      fun heq _ => absurd heq h0, fun _ hfalse => ?_⟩
    · rw [hcp, prc_gate_state]
    · rw [hcp, prc_gate_did]
    · rw [hcp]
      exact prc_gate_error _ _ hfalse

/-- Closed instance of the C7 property: with the previous iteration not yet
analysed and an analysis that finds zero plausible samples, the precheck
triggers the analysis, raises the error, and leaves the iteration data
unchanged. -/
theorem construct_precheck_spec_witness :
    (construct_precheck ([] : List ℕ) 5
      (⟨0, true, [], 42⟩ : ctrl_state ℕ ℕ)).state.iter_data =
        (⟨0, true, [], 42⟩ : ctrl_state ℕ ℕ).iter_data ∧
    (construct_precheck ([] : List ℕ) 5
      (⟨0, true, [], 42⟩ : ctrl_state ℕ ℕ)).did_analyze = true ∧
    (construct_precheck ([] : List ℕ) 5
      (⟨0, true, [], 42⟩ : ctrl_state ℕ ℕ)).error.isSome = true := by
  have h := construct_precheck_spec ([] : List ℕ) 5
    (⟨0, true, [], 42⟩ : ctrl_state ℕ ℕ)
  exact ⟨h.1, h.2.1 rfl, h.2.2.2.1 rfl rfl⟩

/-! ## Persistence of plausible-sample data (`Pipeline._save_data`,
`impl_sam` branch, pipeline.py lines 1052-1073) -/

/-- The state touched by the `impl_sam` branch of `_save_data`: the
in-memory per-iteration counts `self._n_impl_sam`, the in-memory flag
`self._prc` and samples `self._impl_sam`, and the per-iteration HDF5
dataset `impl_sam` with the attributes `n_impl_sam` and `prc`. -/
structure save_state (α : Type) where
  mem_n_impl_sam : List ℕ
  mem_prc : Bool
  mem_impl_sam : List α
  file_impl_sam : ℕ → Option (List α)
  file_n_impl_sam : ℕ → Option ℕ
  file_prc : ℕ → Option Bool

/-- The `impl_sam` branch of `_save_data` (pipeline.py lines 1052-1073):
`n_impl_sam` is the number of rows of the saved array, `prc` is 1 exactly
when that number is non-zero; the in-memory count list is updated in place
(or appended on `IndexError`); the `finally` block always stores `prc`,
`impl_sam` and `n_impl_sam` together, in memory and in the file. -/
def save_data_impl_sam {α : Type} (emul_i : ℕ) (data : List α)
    (st : save_state α) : save_state α :=
  let n := data.length
  let prc : Bool := n != 0
  { mem_n_impl_sam :=
      if emul_i < st.mem_n_impl_sam.length then st.mem_n_impl_sam.set emul_i n
      else st.mem_n_impl_sam ++ [n],
    mem_prc := prc,
    mem_impl_sam := data,
    file_impl_sam := Function.update st.file_impl_sam emul_i (some data),
    file_n_impl_sam := Function.update st.file_n_impl_sam emul_i (some n),
    file_prc := Function.update st.file_prc emul_i (some prc) }

/-- C10: every save of plausible-sample data keeps the persisted and
in-memory `prc`, `n_impl_sam` and `impl_sam` coupled: `prc` is true exactly
when the saved array is non-empty, `n_impl_sam` equals its row count, and
all three are written together by the one save. -/
theorem save_data_impl_sam_spec {α : Type} (emul_i : ℕ) (data : List α)
    (st : save_state α) (h : emul_i ≤ st.mem_n_impl_sam.length) :
    (save_data_impl_sam emul_i data st).file_impl_sam emul_i = some data ∧
    (save_data_impl_sam emul_i data st).file_n_impl_sam emul_i =
      some data.length ∧
    (save_data_impl_sam emul_i data st).file_prc emul_i =
      some (data.length != 0) ∧
    (save_data_impl_sam emul_i data st).mem_impl_sam = data ∧
    (save_data_impl_sam emul_i data st).mem_prc = (data.length != 0) ∧
    (save_data_impl_sam emul_i data st).mem_n_impl_sam[emul_i]? =
      some data.length ∧
    ((save_data_impl_sam emul_i data st).mem_prc = true ↔
      0 < data.length) := by
  refine ⟨?_, ?_, ?_, rfl, rfl, ?_, ?_⟩
  · simp [save_data_impl_sam]
  · simp [save_data_impl_sam]
  · simp [save_data_impl_sam]
  · rcases lt_or_eq_of_le h with hlt | heq
    · simp only [save_data_impl_sam, if_pos hlt]
      rw [List.getElem?_set_eq hlt]
    · have hnlt : ¬ emul_i < st.mem_n_impl_sam.length := by omega
      simp only [save_data_impl_sam, if_neg hnlt]
      rw [heq, List.getElem?_append_right le_rfl]
      simp
  · simp only [save_data_impl_sam]
    simp [bne_iff_ne, Nat.pos_iff_ne_zero]

/-- Closed instance of the C10 property at a concrete prior state and a
two-row sample array. -/
theorem save_data_impl_sam_spec_witness :
    (save_data_impl_sam 1 [7, 8]
      (⟨[10], false, [], fun _ => none, fun _ => none, fun _ => none⟩ :
        save_state ℕ)).file_impl_sam 1 = some [7, 8] ∧
    (save_data_impl_sam 1 [7, 8]
      (⟨[10], false, [], fun _ => none, fun _ => none, fun _ => none⟩ :
        save_state ℕ)).file_n_impl_sam 1 = some ([7, 8] : List ℕ).length ∧
    (save_data_impl_sam 1 [7, 8]
      (⟨[10], false, [], fun _ => none, fun _ => none, fun _ => none⟩ :
        save_state ℕ)).file_prc 1 = some (([7, 8] : List ℕ).length != 0) ∧
    (save_data_impl_sam 1 [7, 8]
      (⟨[10], false, [], fun _ => none, fun _ => none, fun _ => none⟩ :
        save_state ℕ)).mem_impl_sam = [7, 8] ∧
    (save_data_impl_sam 1 [7, 8]
      (⟨[10], false, [], fun _ => none, fun _ => none, fun _ => none⟩ :
        save_state ℕ)).mem_prc = (([7, 8] : List ℕ).length != 0) ∧
    (save_data_impl_sam 1 [7, 8]
      (⟨[10], false, [], fun _ => none, fun _ => none, fun _ => none⟩ :
        save_state ℕ)).mem_n_impl_sam[1]? = some ([7, 8] : List ℕ).length ∧
    ((save_data_impl_sam 1 [7, 8]
      (⟨[10], false, [], fun _ => none, fun _ => none, fun _ => none⟩ :
        save_state ℕ)).mem_prc = true ↔ 0 < ([7, 8] : List ℕ).length) :=
  save_data_impl_sam_spec 1 [7, 8]
    (⟨[10], false, [], fun _ => none, fun _ => none, fun _ => none⟩ :
      save_state ℕ) (by simp)

end PRISM
